import Mathlib

/-!
Verification of the tree-builder adapter in `lib/wt2html/HTML5TreeBuilder.js`.

The adapter (`TreeBuilder.prototype.processToken`) consumes wikitext tokens and
emits primitive tree-mutation commands (the objects passed to
`this.emit('token', ...)`) to the HTML5 tree-construction library, while
maintaining bookkeeping state (`tagId`, `inTransclusion`, `tableDepth`,
`haveTransclusionShadow`, `preceededByPre`, `lastToken`).

Embedding notes:
* Tokens (`TagTk`, `SelfclosingTagTk`, `EndTagTk`, `NlTk`, `CommentTk`,
  `EOFTk` and plain strings, from `parser.defines.js`) become the inductive
  `Token`.  Attribute values may be strings or token lists (the raw-HTML
  `content` attribute stores tokens); `JSON.stringify(dataAttribs)` is
  modelled as the injective constructor `AttrVal.serialized`, so a command
  carrying the serialized metadata bag carries the bag itself.
* The metadata bag `dataAttribs` is open in JS; only the fields this file of
  the source reads or writes are modelled (`tmp`, `autoInsertedEnd`,
  `endpos`, `tsr`, `stx`, `tokens`).  `tsr` entries may become `undefined`
  (`[tsr[0], endpos]` with absent `endpos`), hence `Option Int` components.
* JS exceptions (calling `.unshift`/`.match` on `undefined` or on an array)
  are modelled as the result `PRes.typeError`: the parse aborts there.
* Recursive re-entry (`this.onChunk(...)` for empty-line metas and raw-HTML
  `pre` unpacking) is handled with a fuel parameter so that every definition
  is structurally recursive and computable; `PRes.fuelOut` is an artifact of
  the embedding only and is distinct from the JS error path.
* Logging (`env.log`) and the resource-accounting hook have no effect on
  state or commands and are not modelled.
* `resetState` (line 63) sets the field spelled `precededByPre` while
  `processToken` reads and writes the field spelled `preceededByPre`
  (lines 172, 348-357); both fields are modelled faithfully.
-/

/-- The scratch map `dataAttribs.tmp`: the adapter stores the assigned tag id
and the transclusion-membership flag there (lines 150, 155). -/
structure Tmp where
  inTransclusion : Bool
  tagId : Option Nat

mutual

/-- Value of a token attribute: a string, a stored token list (the raw-HTML
`content` attribute), or the serialized metadata bag
(`JSON.stringify(dataAttribs)`, modelled injectively). -/
inductive AttrVal where
  | str : String → AttrVal
  | toks : List Token → AttrVal
  | serialized : DataAttribs → AttrVal

/-- The token metadata bag, restricted to the fields this source file
touches: `tmp`, `autoInsertedEnd`, `endpos`, `tsr`, `stx`, `tokens`. -/
inductive DataAttribs where
  | mk : Option Tmp → Bool → Option Int → Option (Option Int × Option Int) →
      Option String → Option (List Token) → DataAttribs

/-- Tokens fed to `processToken`: plain strings, `NlTk`, `TagTk`,
`SelfclosingTagTk`, `EndTagTk`, `CommentTk`, `EOFTk`. -/
inductive Token where
  | str : String → Token
  | nl : Token
  | tag : String → List (String × AttrVal) → Option DataAttribs → Token
  | selfClosing : String → List (String × AttrVal) → Option DataAttribs → Token
  | endTag : String → List (String × AttrVal) → Option DataAttribs → Token
  | comment : String → Token
  | eof : Token

end

def DataAttribs.tmp : DataAttribs → Option Tmp
  | .mk x _ _ _ _ _ => x

def DataAttribs.autoInsertedEnd : DataAttribs → Bool
  | .mk _ x _ _ _ _ => x

def DataAttribs.endpos : DataAttribs → Option Int
  | .mk _ _ x _ _ _ => x

def DataAttribs.tsr : DataAttribs → Option (Option Int × Option Int)
  | .mk _ _ _ x _ _ => x

def DataAttribs.stx : DataAttribs → Option String
  | .mk _ _ _ _ x _ => x

def DataAttribs.tokens : DataAttribs → Option (List Token)
  | .mk _ _ _ _ _ x => x

def DataAttribs.withTmp : DataAttribs → Option Tmp → DataAttribs
  | .mk _ b c d e f, x => .mk x b c d e f

def DataAttribs.withEndpos : DataAttribs → Option Int → DataAttribs
  | .mk a b _ d e f, x => .mk a b x d e f

def DataAttribs.withTsr : DataAttribs → Option (Option Int × Option Int) → DataAttribs
  | .mk a b c _ e f, x => .mk a b c x e f

def DataAttribs.withStx : DataAttribs → Option String → DataAttribs
  | .mk a b c d _ f, x => .mk a b c d x f

/-- The default metadata bag the adapter substitutes for a missing one:
`token.dataAttribs || { tmp: {} }` (line 143). -/
def defaultDA : DataAttribs := .mk (some ⟨false, none⟩) false none none none none

def Token.attribsOf : Token → List (String × AttrVal)
  | .tag _ a _ => a
  | .selfClosing _ a _ => a
  | .endTag _ a _ => a
  | _ => []

def Token.daOf : Token → Option DataAttribs
  | .tag _ _ d => d
  | .selfClosing _ _ d => d
  | .endTag _ _ d => d
  | _ => none

/-- First attribute value with the given key, or `none`. -/
def attrLookup : List (String × AttrVal) → String → Option AttrVal
  | [], _ => none
  | (k, v) :: rest, key => if k = key then some v else attrLookup rest key

/-- Modelled from the spec: token attribute lookup (`token.getAttribute` from
`parser.defines.js`, which is outside `src/`) returns the value of the first
attribute whose key matches, and `null` (here `none`) when absent; the spec
fixes `attrs` as an ordered key/value sequence with keys not guaranteed
unique. -/
def Token.getAttr (t : Token) (key : String) : Option AttrVal :=
  attrLookup t.attribsOf key

/-- Adapter state: the mutable fields of the `TreeBuilder` object.  The two
differently spelled preceded-by-pre fields are both in the source:
`resetState` writes `precededByPre` (line 63, never read back), while
`processToken` reads and writes `preceededByPre` (lines 172, 348-357). -/
structure State where
  tagId : Nat
  inTransclusion : Bool
  precededByPre : Bool
  preceededByPre : Bool
  tableDepth : Int
  haveTransclusionShadow : Bool
  lastToken : Option Token

/-- Payload of an emitted `Comment` command: either the literal text of a
`CommentTk`, or the serialized marker object
`JSON.stringify({ '@type': ..., attrs: ... })`, modelled injectively.  The
type field is an `AttrVal` because for converted metas it is the raw value
of the token's `typeof` attribute. -/
inductive CommentData where
  | raw : String → CommentData
  | obj : AttrVal → List (String × AttrVal) → CommentData

/-- Primitive commands emitted to the tree-construction algorithm: the
objects passed to `this.emit('token', ...)`.  `startTag` records the
`self_closing` flag (present only on the foster box); `endTag`'s second
argument records whether a `data` field was present at all (the `EndTagTk`
case emits `{type: 'EndTag', name}` with no data, line 305). -/
inductive Cmd where
  | chars : String → Cmd
  | startTag : String → Bool → List (String × AttrVal) → Cmd
  | endTag : String → Option (List (String × AttrVal)) → Cmd
  | comment : CommentData → Cmd
  | eof : Cmd

/-- Result of processing: success with the new state, emitted commands and
the tag ids assigned (in assignment order, recording line 155); or the JS
exception path (`typeError`); or fuel exhaustion (embedding artifact). -/
inductive PRes where
  | ok : State → List Cmd → List Nat → PRes
  | typeError : PRes
  | fuelOut : PRes

/-- `TreeBuilder.prototype._att`: maps `{k, v}` pairs to
`{nodeName, nodeValue}` pairs.  The `namespaceURI` annotation it adds for
keys matching `SanitizerConstants.XMLNS_ATTRIBUTE_RE` (a module outside
`src/`) is extra metadata on the attribute object that no claim observes and
is omitted. -/
def att (l : List (String × AttrVal)) : List (String × AttrVal) :=
  l.map (fun a => (a.1, a.2))

/-- Character-list string prefix test (JS `startsWith`; evaluated on the
character lists so that it reduces definitionally). -/
def strPrefix (p s : String) : Bool :=
  List.isPrefixOf p.toList s.toList

/-- JS `\w` character class. -/
def isWordChar (c : Char) : Bool :=
  c.isAlpha || c.isDigit || c == '_'

def charAfter (s : String) (n : Nat) : Option Char :=
  (s.toList.drop n).head?

/-- Test for a regex of the form `^p\b` where `p` ends in a word character:
`s` starts with `p` and the following character, if any, is not a word
character. -/
def testWB (p s : String) : Bool :=
  strPrefix p s &&
    (match charAfter s p.length with
     | none => true
     | some c => !isWordChar c)

/-- `/^mw:(Extension\/ref\/Marker|Includes\/(OnlyInclude|IncludeOnly|NoInclude))\b/`
applied to the `typeof` attribute value (line 271).  `RegExp.test` coerces
`null` and arrays to strings, which never match. -/
def shouldFosterTypeof : Option AttrVal → Bool
  | some (.str s) =>
    testWB ("mw:Extension/ref/Marker") s || testWB ("mw:Includes/OnlyInclude") s ||
      testWB ("mw:Includes/IncludeOnly") s || testWB ("mw:Includes/NoInclude") s
  | _ => false

/-- `/^(mw:PageProp\/[a-zA-Z]*)\b/` applied to the `property` attribute value
(line 274).  With backtracking this regex matches exactly the strings that
begin with `mw:PageProp/` followed by a word character. -/
def pagePropProp : Option AttrVal → Bool
  | some (.str s) =>
    strPrefix ("mw:PageProp/") s &&
      (match charAfter s 12 with
       | some c => isWordChar c
       | none => false)
  | _ => false

/-- The foster box marker emitted before a non-transclusion table open
(lines 204-209). -/
def fosterBoxCmd : Cmd :=
  Cmd.startTag ("table") true [(("typeof"), AttrVal.str ("mw:FosterBox"))]

/-- The transclusion shadow marker emitted after a text node inside a table
inside a transclusion (lines 186-190). -/
def tshadowCmd : Cmd :=
  Cmd.startTag ("meta") false [(("typeof"), AttrVal.str ("mw:TransclusionShadow"))]

/-- JS string conversion of a possibly-undefined number (string
concatenation at line 216). -/
def jsNum : Option Nat → String
  | some n => toString n
  | none => ("undefined")

def tmpTagIdOf (da : DataAttribs) : Option Nat :=
  match da.tmp with
  | some tp => tp.tagId
  | none => none

/-- The shadow comment emitted right after a start tag (lines 213-225). -/
def startShadowCmd (n : String) (da : DataAttribs) : Cmd :=
  Cmd.comment (CommentData.obj (AttrVal.str ("mw:shadow"))
    [(("typeof"), AttrVal.str ("mw:StartTag")),
     (("data-stag"), AttrVal.str (n ++ ":" ++ jsNum (tmpTagIdOf da))),
     (("data-parsoid"), AttrVal.serialized da)])

/-- The shadow comment emitted right after an end tag that is not
auto-inserted (lines 306-319). -/
def endShadowCmd (n : String) (attribs : List (String × AttrVal)) (da : DataAttribs) : Cmd :=
  Cmd.comment (CommentData.obj (AttrVal.str ("mw:shadow"))
    (att attribs ++
      [(("typeof"), AttrVal.str ("mw:EndTag")),
       (("data-etag"), AttrVal.str n),
       (("data-parsoid"), AttrVal.serialized da)]))

/-- Modelled from the spec: `Util.isEmptyLineMetaToken` is outside `src/`;
per the spec, an empty-line marker is a previously-collapsed self-closing
`meta` token, recognized by its empty-line marker type. -/
def isEmptyLineMetaToken (t : Token) : Bool :=
  match t with
  | .selfClosing n _ _ =>
    n == ("meta") &&
      (match t.getAttr ("typeof") with
       | some (.str s) => s == ("mw:EmptyLine")
       | _ => false)
  | _ => false

/-- Modelled from the spec: `Util.isVoidElement` is outside `src/`; the spec
fixes "a small fixed set of void elements" (elements that cannot have
content and are never paired with an explicit close command). -/
def voidElements : List String :=
  [("area"), ("base"), ("basefont"), ("bgsound"), ("br"), ("col"), ("command"),
   ("embed"), ("frame"), ("hr"), ("img"), ("input"), ("keygen"), ("link"),
   ("meta"), ("param"), ("source"), ("track"), ("wbr")]

def isVoidElement (n : String) : Bool :=
  voidElements.contains n

def isNowikiSpanTypeof (t : Token) : Bool :=
  match t.getAttr ("typeof") with
  | some (.str s) => s == ("mw:Nowiki")
  | _ => false

/-- The trailing state update of `processToken` (lines 338-361): reset
`haveTransclusionShadow` unless the token was a string or newline; set
`preceededByPre` after an open `pre`, keep it unchanged for a nowiki span,
otherwise clear it; store the token as `lastToken`. -/
def post (st : State) (token : Token) : State :=
  let st1 :=
    match token with
    | .str _ => st
    | .nl => st
    | _ => { st with haveTransclusionShadow := false }
  let st2 :=
    match token with
    | .tag n _ _ =>
      if n = ("pre") then { st1 with preceededByPre := true }
      else if n = ("span") then
        (if isNowikiSpanTypeof token then st1 else { st1 with preceededByPre := false })
      else { st1 with preceededByPre := false }
    | _ => { st1 with preceededByPre := false }
  { st2 with lastToken := some token }

def ensureTmp (da : DataAttribs) : DataAttribs :=
  match da.tmp with
  | none => da.withTmp (some ⟨false, none⟩)
  | some _ => da

def markTrans (da : DataAttribs) : DataAttribs :=
  match da.tmp with
  | some tp => da.withTmp (some { tp with inTransclusion := true })
  | none => da

def setTagId (da : DataAttribs) (n : Nat) : DataAttribs :=
  match da.tmp with
  | some tp => da.withTmp (some { tp with tagId := some n })
  | none => da

/-- The leading part of `processToken` (lines 142-156): default the metadata
bag, ensure `tmp`, record transclusion membership, and assign `tagId` to
open and self-closing tags.  Returns the updated state, the updated bag and
the list of tag ids assigned. -/
def prep (st : State) (token : Token) : State × DataAttribs × List Nat :=
  let da0 := (token.daOf).getD defaultDA
  let da1 := ensureTmp da0
  let da2 := if st.inTransclusion then markTrans da1 else da1
  match token with
  | .tag _ _ _ => ({ st with tagId := st.tagId + 1 }, setTagId da2 st.tagId, [st.tagId])
  | .selfClosing _ _ _ => ({ st with tagId := st.tagId + 1 }, setTagId da2 st.tagId, [st.tagId])
  | _ => (st, da2, [])

/-- The metadata bag after the leading part of `processToken`. -/
def prepDA (st : State) (t : Token) : DataAttribs :=
  (prep st t).2.1

def headIsNl (s : String) : Bool :=
  match s.toList with
  | c :: _ => c == '\n'
  | [] => false

/-- The `String`/`NlTk` case (lines 169-193): emit the text (doubling a
leading newline after a `pre`), and inside a table inside a transclusion
emit one shadow meta after a string token when none was emitted yet for the
current run. -/
def strNlCase (st1 : State) (token : Token) (ids : List Nat) (data0 : String) : PRes :=
  let data := if st1.preceededByPre && headIsNl data0 then ("\n") ++ data0 else data0
  let isStrTok : Bool :=
    match token with
    | .str _ => true
    | _ => false
  if st1.inTransclusion && decide (0 < st1.tableDepth) && isStrTok &&
      !st1.haveTransclusionShadow then
    PRes.ok (post { st1 with haveTransclusionShadow := true } token)
      [Cmd.chars data, tshadowCmd] ids
  else
    PRes.ok (post st1 token) [Cmd.chars data] ids

/-- The generic `SelfclosingTagTk` handling (lines 292-298): start tag, and
a matching end tag unless the element is void. -/
def genericSelfClosing (st1 : State) (token : Token) (ids : List Nat)
    (attribs : List (String × AttrVal)) (n : String) : PRes :=
  let newAttrs := att attribs
  let cmds :=
    if isVoidElement n then [Cmd.startTag n false newAttrs]
    else [Cmd.startTag n false newAttrs, Cmd.endTag n (some newAttrs)]
  PRes.ok (post st1 token) cmds ids

/-- The `meta` conversion (lines 269-290): unless the marker must remain a
real element, update the transclusion flag for `mw:Transclusion` markers and
emit a comment instead.  `tTypeOf.match` on `null` or an array throws. -/
def metaOrGeneric (st1 : State) (token : Token) (ids : List Nat)
    (attribs : List (String × AttrVal)) (n : String) : PRes :=
  let tTypeOf := token.getAttr ("typeof")
  let sf := shouldFosterTypeof tTypeOf || pagePropProp (token.getAttr ("property"))
  if sf then genericSelfClosing st1 token ids attribs n
  else
    match tTypeOf with
    | some (AttrVal.str s) =>
      let st2 :=
        if strPrefix ("mw:Transclusion") s then
          { st1 with inTransclusion := s == ("mw:Transclusion") }
        else st1
      PRes.ok (post st2 token) [Cmd.comment (CommentData.obj (AttrVal.str s) (att attribs))] ids
    | some (AttrVal.serialized d) =>
      -- In JS this value is a JSON string; it matches none of the marker
      -- regexes and never begins with the transclusion prefix.
      PRes.ok (post st1 token)
        [Cmd.comment (CommentData.obj (AttrVal.serialized d) (att attribs))] ids
    | some (AttrVal.toks _) => PRes.typeError
    | none => PRes.typeError

/-- The test `tName === "pre" && tProperty && tProperty.match(/^mw:html$/)`
(line 237): `none` means the JS expression throws (`.match` on an array). -/
def mwHtmlPreTest (n : String) (prop : Option AttrVal) : Option Bool :=
  if n = ("pre") then
    match prop with
    | none => some false
    | some (AttrVal.str s) => some (s == ("mw:html"))
    | some (AttrVal.serialized _) => some false
    | some (AttrVal.toks _) => none
  else some false

/-- Value of the last `content` attribute if it holds a token list; the
filter callback (lines 240-247) overwrites `toks` at each `content`
attribute, and `toks.unshift` then throws unless the captured value is an
array. -/
def lastContentToks (l : List (String × AttrVal)) : Option (List Token) :=
  match l with
  | [] => none
  | (k, v) :: rest =>
    match lastContentToks rest with
    | some r => some r
    | none => if k == ("content") then (match v with
        | AttrVal.toks ts => some ts
        | _ => none)
      else none

def jsSub (a : Option Int) (b : Int) : Option Int :=
  -- `undefined - 6` is NaN in JS; collapsed to the absent value, which no
  -- claim observes.
  a.map (fun x => x - b)

mutual

/-- `TreeBuilder.prototype.processToken` (lines 137-362), fuel-indexed. -/
def processTokenF : Nat → State → Token → PRes
  | 0, _, _ => PRes.fuelOut
  | fuel + 1, st, token =>
    let p := prep st token
    let st1 := p.1
    let da := p.2.1
    let ids := p.2.2
    let attribs := token.attribsOf ++ [(("data-parsoid"), AttrVal.serialized da)]
    match token with
    | .str s => strNlCase st1 token ids s
    | .nl => strNlCase st1 token ids ("\n")
    | .tag n _ _ =>
      let tb :=
        if n = ("table") then
          ({ st1 with tableDepth := st1.tableDepth + 1 },
            if st1.inTransclusion then ([] : List Cmd) else [fosterBoxCmd])
        else (st1, ([] : List Cmd))
      PRes.ok (post tb.1 token)
        (tb.2 ++ [Cmd.startTag n false (att attribs), startShadowCmd n da]) ids
    | .selfClosing n _ _ =>
      if isEmptyLineMetaToken token then
        -- Re-expand the empty-line meta (lines 231-234); `onChunk` on a
        -- missing token list throws.
        match da.tokens with
        | none => PRes.typeError
        | some toks =>
          match processTokensF fuel st1 toks with
          | PRes.ok st2 cmds ids2 => PRes.ok (post st2 token) cmds (ids ++ ids2)
          | r => r
      else
        match mwHtmlPreTest n (token.getAttr ("property")) with
        | none => PRes.typeError
        | some true =>
          -- Unpack raw-HTML pre (lines 238-263).
          match lastContentToks attribs with
          | some toks =>
            let endpos := da.endpos
            let da1 := da.withEndpos none
            let tsr := da1.tsr
            let da2 :=
              match tsr with
              | some pr => da1.withTsr (some (pr.1, endpos))
              | none => da1
            let da3 := da2.withStx (some ("html"))
            let attribsF :=
              attribs.filter (fun a => !(a.1 == ("content")) && !(a.1 == ("property")))
            let daEnd :=
              match tsr with
              | some pr =>
                DataAttribs.mk none false none (some (jsSub pr.2 6, pr.2)) (some ("html")) none
              | none => DataAttribs.mk none false none none (some ("html")) none
            let chunk :=
              Token.tag ("pre") attribsF (some da3) :: toks ++
                [Token.endTag ("pre") [] (some daEnd)]
            match processTokensF fuel st1 chunk with
            | PRes.ok st2 cmds ids2 => PRes.ok (post st2 token) cmds (ids ++ ids2)
            | r => r
          | none => PRes.typeError
        | some false =>
          if n = ("meta") then metaOrGeneric st1 token ids attribs n
          else genericSelfClosing st1 token ids attribs n
    | .endTag n _ _ =>
      let st2 :=
        if n = ("table") then
          (if 0 < st1.tableDepth then { st1 with tableDepth := st1.tableDepth - 1 } else st1)
        else st1
      let cmds :=
        if da.autoInsertedEnd then [Cmd.endTag n none]
        else [Cmd.endTag n none, endShadowCmd n attribs da]
      PRes.ok (post st2 token) cmds ids
    | .comment v => PRes.ok (post st1 token) [Cmd.comment (CommentData.raw v)] ids
    | .eof => PRes.ok (post st1 token) [Cmd.eof] ids

/-- `TreeBuilder.prototype.onChunk` (lines 104-109): process the tokens in
order, concatenating commands and assigned ids; an exception aborts the
chunk. -/
def processTokensF : Nat → State → List Token → PRes
  | 0, _, _ => PRes.fuelOut
  | _ + 1, st, [] => PRes.ok st [] []
  | fuel + 1, st, t :: ts =>
    match processTokenF fuel st t with
    | PRes.ok st1 c1 i1 =>
      match processTokensF fuel st1 ts with
      | PRes.ok st2 c2 i2 => PRes.ok st2 (c1 ++ c2) (i1 ++ i2)
      | r => r
    | r => r

end

/-- The state of a newly constructed `TreeBuilder` before `resetState` runs:
all fields undefined, modelled as their falsy defaults. -/
def initialState : State :=
  { tagId := 1, inTransclusion := false, precededByPre := false,
    preceededByPre := false, tableDepth := 0, haveTransclusionShadow := false,
    lastToken := none }

/-- The direct field resets of `resetState` (lines 61-82).  Note it writes
the dead spelling `precededByPre`; the live `preceededByPre` flag is instead
cleared by the body token's own trailing update. -/
def resetVars (st : State) : State :=
  { st with
    tagId := 1, inTransclusion := false, precededByPre := false,
    tableDepth := 0, haveTransclusionShadow := false }

/-- The synthetic body token `resetState` feeds through `processToken`
(line 101). -/
def bodyToken : Token :=
  Token.tag ("body") [] none

/-- `TreeBuilder.prototype.resetState`: reset the bookkeeping fields and
process a synthetic `TagTk('body')` (lines 59-102). -/
def resetStateF (fuel : Nat) (st : State) : PRes :=
  processTokenF fuel (resetVars st) bodyToken

/-- The adapter state reached by any reset, with the synthetic body token
already processed. -/
def freshState : State :=
  { tagId := 2, inTransclusion := false, precededByPre := false,
    preceededByPre := false, tableDepth := 0, haveTransclusionShadow := false,
    lastToken := some bodyToken }

/-! ## Branch equation lemmas -/

lemma tag_case_eq (fuel : Nat) (st : State) (n : String) (a : List (String × AttrVal))
    (d : Option DataAttribs) :
    processTokenF (fuel + 1) st (Token.tag n a d) =
      PRes.ok
        (post (if n = ("table")
          then { st with tagId := st.tagId + 1, tableDepth := st.tableDepth + 1 }
          else { st with tagId := st.tagId + 1 }) (Token.tag n a d))
        ((if n = ("table") then
            (if st.inTransclusion then ([] : List Cmd) else [fosterBoxCmd])
          else []) ++
          [Cmd.startTag n false
            (att (a ++ [(("data-parsoid"), AttrVal.serialized (prepDA st (Token.tag n a d)))])),
           startShadowCmd n (prepDA st (Token.tag n a d))])
        [st.tagId] := by
  by_cases h : n = ("table") <;>
    simp [processTokenF, prep, prepDA, h, Token.attribsOf, Token.daOf]

lemma endTag_case_eq (fuel : Nat) (st : State) (n : String) (a : List (String × AttrVal))
    (d : Option DataAttribs) :
    processTokenF (fuel + 1) st (Token.endTag n a d) =
      PRes.ok
        (post (if n = ("table") then
            (if 0 < st.tableDepth then { st with tableDepth := st.tableDepth - 1 } else st)
          else st) (Token.endTag n a d))
        (if (prepDA st (Token.endTag n a d)).autoInsertedEnd then [Cmd.endTag n none]
         else [Cmd.endTag n none,
           endShadowCmd n (a ++ [(("data-parsoid"),
             AttrVal.serialized (prepDA st (Token.endTag n a d)))])
             (prepDA st (Token.endTag n a d))])
        [] := by
  by_cases h : n = ("table") <;>
    simp [processTokenF, prep, prepDA, h, Token.attribsOf, Token.daOf]

/-! ## State projection lemmas -/

@[simp] lemma post_tagId (s : State) (t : Token) : (post s t).tagId = s.tagId := by
  cases t <;> simp only [post] <;> split_ifs <;> rfl

@[simp] lemma post_inTransclusion (s : State) (t : Token) :
    (post s t).inTransclusion = s.inTransclusion := by
  cases t <;> simp only [post] <;> split_ifs <;> rfl

@[simp] lemma post_tableDepth (s : State) (t : Token) :
    (post s t).tableDepth = s.tableDepth := by
  cases t <;> simp only [post] <;> split_ifs <;> rfl

def isTagLike : Token → Bool
  | .tag _ _ _ => true
  | .selfClosing _ _ _ => true
  | _ => false

/-! ## Assigned tag ids -/

/-- Tag ids assigned during a successful run are exactly the consecutive
integers from the starting `tagId` to the final one. -/
lemma ids_spec : ∀ fuel : Nat,
    (∀ st t st' c ids, processTokenF fuel st t = PRes.ok st' c ids →
      st.tagId ≤ st'.tagId ∧ ids = List.range' st.tagId (st'.tagId - st.tagId) ∧
        (isTagLike t = true → st.tagId < st'.tagId)) ∧
    (∀ st ts st' c ids, processTokensF fuel st ts = PRes.ok st' c ids →
      st.tagId ≤ st'.tagId ∧ ids = List.range' st.tagId (st'.tagId - st.tagId)) := by
  intro fuel
  induction fuel with
  | zero =>
    constructor
    · intro st t st' c ids h; simp only [processTokenF] at h; exact PRes.noConfusion h
    · intro st ts st' c ids h; simp only [processTokensF] at h; exact PRes.noConfusion h
  | succ fuel ih =>
    constructor
    · intro st t st' c ids h
      cases t with
      | str s =>
        simp only [processTokenF, prep, strNlCase] at h
        split at h <;>
        · injection h with h1 h2 h3
          subst h1; subst h3
          simp [isTagLike]
      | nl =>
        simp only [processTokenF, prep, strNlCase] at h
        split at h <;>
        · injection h with h1 h2 h3
          subst h1; subst h3
          simp [isTagLike]
      | comment v =>
        simp only [processTokenF, prep] at h
        injection h with h1 h2 h3
        subst h1; subst h3
        simp [isTagLike]
      | eof =>
        simp only [processTokenF, prep] at h
        injection h with h1 h2 h3
        subst h1; subst h3
        simp [isTagLike]
      | endTag n a d =>
        simp only [processTokenF, prep] at h
        injection h with h1 h2 h3
        subst h1; subst h3
        split_ifs <;> simp [isTagLike]
      | tag n a d =>
        rw [tag_case_eq] at h
        injection h with h1 h2 h3
        subst h1; subst h3
        have ht : (if n = ("table")
            then { st with tagId := st.tagId + 1, tableDepth := st.tableDepth + 1 }
            else { st with tagId := st.tagId + 1 }).tagId = st.tagId + 1 := by
          split_ifs <;> rfl
        refine ⟨by simp [ht], ?_, by simp [isTagLike, ht]⟩
        simp only [post_tagId, ht]
        have hk : st.tagId + 1 - st.tagId = 1 := by omega
        rw [hk, List.range'_one]
      | selfClosing n a d =>
        simp only [processTokenF, prep] at h
        split at h
        · -- empty-line re-expansion
          split at h
          · exact PRes.noConfusion h
          · rename_i toks htoks
            split at h
            · rename_i st2 cmds2 ids2 hrec
              injection h with h1 h2 h3
              subst h1; subst h3
              have hih := ih.2 _ _ _ _ _ hrec
              simp only [post_tagId]
              have hle : st.tagId + 1 ≤ st2.tagId := by
                have := hih.1; simpa using this
              refine ⟨by omega, ?_, by intro _; omega⟩
              have hk : st2.tagId - st.tagId = (st2.tagId - (st.tagId + 1)) + 1 := by omega
              rw [hk, List.range'_succ]
              have h2' := hih.2
              simp only at h2'
              simp [h2']
            · rename_i hne
              exact absurd h (hne _ _ _)
        · -- pre unpack / meta / generic
          split at h
          · exact PRes.noConfusion h
          · -- mw:html pre unpack
            split at h
            · rename_i toks htoks
              split at h
              · rename_i st2 cmds2 ids2 hrec
                injection h with h1 h2 h3
                subst h1; subst h3
                have hih := ih.2 _ _ _ _ _ hrec
                simp only [post_tagId]
                have hle : st.tagId + 1 ≤ st2.tagId := by
                  have := hih.1; simpa using this
                refine ⟨by omega, ?_, by intro _; omega⟩
                have hk : st2.tagId - st.tagId = (st2.tagId - (st.tagId + 1)) + 1 := by omega
                rw [hk, List.range'_succ]
                have h2' := hih.2
                simp only at h2'
                simp [h2']
              · rename_i hne
                exact absurd h (hne _ _ _)
            · exact PRes.noConfusion h
          · -- meta conversion or generic self-closing
            split at h
            · simp only [metaOrGeneric, genericSelfClosing] at h
              split at h
              · injection h with h1 h2 h3
                subst h1; subst h3
                have hk : st.tagId + 1 - st.tagId = 1 := by omega
                refine ⟨?_, ?_, ?_⟩ <;>
                  (try simp only [post_tagId]
                   try split_ifs
                   all_goals simp [isTagLike, hk, List.range'_one])
              · split at h
                · injection h with h1 h2 h3
                  subst h1; subst h3
                  have hk : st.tagId + 1 - st.tagId = 1 := by omega
                  refine ⟨?_, ?_, ?_⟩ <;>
                    (try simp only [post_tagId]
                     try split_ifs
                     all_goals simp [isTagLike, hk, List.range'_one])
                · injection h with h1 h2 h3
                  subst h1; subst h3
                  have hk : st.tagId + 1 - st.tagId = 1 := by omega
                  refine ⟨?_, ?_, ?_⟩ <;>
                    (try simp only [post_tagId]
                     try split_ifs
                     all_goals simp [isTagLike, hk, List.range'_one])
                · exact PRes.noConfusion h
                · exact PRes.noConfusion h
            · simp only [genericSelfClosing] at h
              injection h with h1 h2 h3
              subst h1; subst h3
              have hk : st.tagId + 1 - st.tagId = 1 := by omega
              refine ⟨?_, ?_, ?_⟩ <;>
                (try simp only [post_tagId]
                 try split_ifs
                 all_goals simp [isTagLike, hk, List.range'_one])
    · intro st ts st' c ids h
      cases ts with
      | nil =>
        simp only [processTokensF] at h
        injection h with h1 h2 h3
        subst h1; subst h3
        simp
      | cons t ts =>
        simp only [processTokensF] at h
        split at h
        · rename_i st1 c1 i1 h1
          split at h
          · rename_i st2 c2 i2 h2
            injection h with ha hb hc
            subst ha; subst hc
            have e1 := ih.1 _ _ _ _ _ h1
            have e2 := ih.2 _ _ _ _ _ h2
            refine ⟨by omega, ?_⟩
            rw [e1.2.1, e2.2]
            rw [show st1.tagId = st.tagId + (st1.tagId - st.tagId) from by omega]
            rw [show st.tagId + (st1.tagId - st.tagId) - st.tagId = st1.tagId - st.tagId from by
              omega]
            rw [List.range'_append_1]
            congr 1
            omega
          · rename_i hne
            exact absurd h (hne _ _ _)
        · rename_i hne
          exact absurd h (hne _ _ _)

/-- A token whose processing assigns no tag id emits an empty id list. -/
lemma nonTag_ids (fuel : Nat) (st : State) (t : Token) (st' : State) (c : List Cmd)
    (ids : List Nat) (hn : isTagLike t = false)
    (h : processTokenF fuel st t = PRes.ok st' c ids) : ids = [] := by
  cases fuel with
  | zero => simp only [processTokenF] at h; exact PRes.noConfusion h
  | succ fuel =>
    cases t with
    | tag n a d => simp [isTagLike] at hn
    | selfClosing n a d => simp [isTagLike] at hn
    | str s =>
      simp only [processTokenF, prep, strNlCase] at h
      split at h <;> (injection h with h1 h2 h3; exact h3.symm)
    | nl =>
      simp only [processTokenF, prep, strNlCase] at h
      split at h <;> (injection h with h1 h2 h3; exact h3.symm)
    | endTag n a d =>
      simp only [processTokenF, prep] at h
      injection h with h1 h2 h3; exact h3.symm
    | comment v =>
      simp only [processTokenF, prep] at h
      injection h with h1 h2 h3; exact h3.symm
    | eof =>
      simp only [processTokenF, prep] at h
      injection h with h1 h2 h3; exact h3.symm

/-- C5: within one parse (a run from the freshly reset state, whose synthetic
body token already consumed tag id 1), the tag ids assigned to open and
self-closing tags — the id 1 of the body token followed by the ids recorded
for the stream — form the strictly increasing range of consecutive integers
starting at 1, hence with no repeats; tokens of other kinds are assigned no
id. -/
theorem tag_id_uniqueness :
    (∀ fuel ts st' c ids, processTokensF fuel freshState ts = PRes.ok st' c ids →
      1 :: ids = List.range' 1 (st'.tagId - 1)) ∧
    (∀ fuel st t st' c ids, isTagLike t = false →
      processTokenF fuel st t = PRes.ok st' c ids → ids = []) := by
  constructor
  · intro fuel ts st' c ids h
    have e := (ids_spec fuel).2 _ _ _ _ _ h
    have hle : 2 ≤ st'.tagId := by simpa [freshState] using e.1
    have e2 : ids = List.range' 2 (st'.tagId - 2) := by simpa [freshState] using e.2
    rw [e2, show st'.tagId - 1 = (st'.tagId - 2) + 1 from by omega, List.range'_succ]
  · intro fuel st t st' c ids hn h
    exact nonTag_ids fuel st t st' c ids hn h

theorem tag_id_uniqueness_witness :
    (1 : Nat) :: [2] = List.range' 1 2 ∧ ([] : List Nat) = [] := by
  constructor
  · exact tag_id_uniqueness.1 10 [Token.tag ("p") [] none] _ _ _ rfl
  · exact tag_id_uniqueness.2 10 freshState (Token.str ("x")) _ _ _ rfl rfl

/-- C8: the source instead throws on this input.  A self-closing raw-HTML
`pre` token (property `mw:html`) that lacks its `content` attribute reaches
`toks.unshift` with `toks` undefined (lines 239-255), raising a `TypeError`
that aborts the parse — the adapter does not log-and-skip to generic
self-closing handling.  The theorem evaluates the code at the failing input
for every state and every positive fuel. -/
theorem raw_html_pre_missing_content_throws :
    ∀ fuel st, processTokenF (fuel + 1) st
      (Token.selfClosing ("pre") [(("property"), AttrVal.str ("mw:html"))] none) =
      PRes.typeError := by
  intro fuel st
  rfl

/-- The metadata bag for the synthetic body token after the leading part of
`processToken`: scratch map with tag id 1. -/
def daBody : DataAttribs := DataAttribs.mk (some ⟨false, some 1⟩) false none none none none

/-- C10: every reset feeds a synthetic `TagTk('body')` through
`processToken`, which issues the open-element(body) command (followed by its
shadow comment) and consumes tag id 1, leaving the fresh state with next id
2 — so the first open/self-closing tag from the stream is assigned id 2. -/
theorem reset_processes_body :
    (∀ fuel st, resetStateF (fuel + 1) st = PRes.ok freshState
      [Cmd.startTag ("body") false [(("data-parsoid"), AttrVal.serialized daBody)],
       startShadowCmd ("body") daBody] [1]) ∧
    (∀ fuel t st' c ids, isTagLike t = true →
      processTokenF fuel freshState t = PRes.ok st' c ids → ids.head? = some 2) := by
  constructor
  · intro fuel st
    rfl
  · intro fuel t st' c ids htl h
    have e := (ids_spec fuel).1 freshState t st' c ids h
    have hlt := e.2.2 htl
    rw [e.2.1, List.head?_range']
    have hlt2 : (2 : Nat) < st'.tagId := by simpa [freshState] using hlt
    simp [freshState, show st'.tagId - 2 ≠ 0 from by omega]

theorem reset_processes_body_witness :
    resetStateF 5 initialState = PRes.ok freshState
      [Cmd.startTag ("body") false [(("data-parsoid"), AttrVal.serialized daBody)],
       startShadowCmd ("body") daBody] [1] ∧
    ([2] : List Nat).head? = some 2 := by
  constructor
  · exact reset_processes_body.1 4 initialState
  · exact reset_processes_body.2 10 (Token.tag ("p") [] none) _ _ _ rfl rfl

/-! ## C1: basic paragraph scenario -/

/-- The token stream of the basic-paragraph scenario. -/
def c1Input : List Token :=
  [Token.tag ("p") [] none, Token.str ("hi"), Token.endTag ("p") [] none, Token.eof]

/-- Metadata bag attached to the scenario's open `p` tag (tag id 2). -/
def daP : DataAttribs := DataAttribs.mk (some ⟨false, some 2⟩) false none none none none

/-- Metadata bag attached to the scenario's close `p` tag (no tag id). -/
def daE : DataAttribs := DataAttribs.mk (some ⟨false, none⟩) false none none none none

/-- The `data-stag` value carried by the `i`-th command of a successful
result, when that command is a marker comment. -/
def stagAt (r : PRes) (i : Nat) : Option AttrVal :=
  match r with
  | PRes.ok _ cmds _ =>
    match cmds.get? i with
    | some (Cmd.comment (CommentData.obj _ attrs)) => attrLookup attrs ("data-stag")
    | _ => none
  | _ => none

/-- C1 counterexample: from a freshly reset adapter the open-shadow comment
for the scenario's `p` tag carries `data-stag` value `p:2`, not `p:1` as the
claim states (the synthetic body token already consumed id 1). -/
theorem basic_paragraph_counterexample :
    stagAt (processTokensF 20 freshState c1Input) 1 ≠ some (AttrVal.str ("p:1")) := by
  intro h
  have h0 : stagAt (processTokensF 20 freshState c1Input) 1 = some (AttrVal.str ("p:2")) := rfl
  rw [h0] at h
  simp at h

/-- C1 amended: the basic-paragraph scenario emits exactly
open(p) → comment(open-shadow, "p:2") → text(hi) → close(p) →
comment(close-shadow, "p") → end; the open shadow's `data-stag` is `p:2`,
because the reset's synthetic body token consumes tag id 1. -/
theorem basic_paragraph_amended :
    processTokensF 20 freshState c1Input =
      PRes.ok
        { tagId := 3, inTransclusion := false, precededByPre := false,
          preceededByPre := false, tableDepth := 0, haveTransclusionShadow := false,
          lastToken := some Token.eof }
        [Cmd.startTag ("p") false [(("data-parsoid"), AttrVal.serialized daP)],
         Cmd.comment (CommentData.obj (AttrVal.str ("mw:shadow"))
           [(("typeof"), AttrVal.str ("mw:StartTag")),
            (("data-stag"), AttrVal.str ("p:2")),
            (("data-parsoid"), AttrVal.serialized daP)]),
         Cmd.chars ("hi"),
         Cmd.endTag ("p") none,
         Cmd.comment (CommentData.obj (AttrVal.str ("mw:shadow"))
           [(("data-parsoid"), AttrVal.serialized daE),
            (("typeof"), AttrVal.str ("mw:EndTag")),
            (("data-etag"), AttrVal.str ("p")),
            (("data-parsoid"), AttrVal.serialized daE)]),
         Cmd.eof]
        [2] := by
  rfl

/-! ## C4 / C6 / C9: shadow pairing, foster box, attribute carry -/

@[simp] lemma withTmp_autoIns (da : DataAttribs) (x : Option Tmp) :
    (da.withTmp x).autoInsertedEnd = da.autoInsertedEnd := by
  cases da; rfl

@[simp] lemma ensureTmp_autoIns (da : DataAttribs) :
    (ensureTmp da).autoInsertedEnd = da.autoInsertedEnd := by
  unfold ensureTmp; split <;> simp

@[simp] lemma markTrans_autoIns (da : DataAttribs) :
    (markTrans da).autoInsertedEnd = da.autoInsertedEnd := by
  unfold markTrans; split <;> simp

@[simp] lemma setTagId_autoIns (da : DataAttribs) (n : Nat) :
    (setTagId da n).autoInsertedEnd = da.autoInsertedEnd := by
  unfold setTagId; split <;> simp

/-- The leading part of `processToken` never changes `autoInsertedEnd`: it
only rewrites the scratch map. -/
lemma prepDA_autoIns (st : State) (t : Token) :
    (prepDA st t).autoInsertedEnd = ((t.daOf).getD defaultDA).autoInsertedEnd := by
  unfold prepDA prep
  cases t <;> (simp only []; split_ifs <;> simp)

/-- C4: every processed OpenTag emits its open-element command immediately
followed by the synthetic `mw:shadow` comment (marker type `mw:StartTag`,
`data-stag` = name:id, serialized metadata bag); every CloseTag not flagged
auto-inserted emits close-element immediately followed by the `mw:shadow`
close comment; an auto-inserted CloseTag emits no shadow comment. -/
theorem shadow_pairing :
    (∀ fuel st n a d st' cmds ids,
      processTokenF (fuel + 1) st (Token.tag n a d) = PRes.ok st' cmds ids →
      ∃ fb, (fb = ([] : List Cmd) ∨ fb = [fosterBoxCmd]) ∧
        cmds = fb ++
          [Cmd.startTag n false
            (att (a ++ [(("data-parsoid"), AttrVal.serialized (prepDA st (Token.tag n a d)))])),
           startShadowCmd n (prepDA st (Token.tag n a d))]) ∧
    (∀ fuel st n a d st' cmds ids, (d.getD defaultDA).autoInsertedEnd = false →
      processTokenF (fuel + 1) st (Token.endTag n a d) = PRes.ok st' cmds ids →
      cmds = [Cmd.endTag n none,
        endShadowCmd n
          (a ++ [(("data-parsoid"), AttrVal.serialized (prepDA st (Token.endTag n a d)))])
          (prepDA st (Token.endTag n a d))]) ∧
    (∀ fuel st n a d st' cmds ids, (d.getD defaultDA).autoInsertedEnd = true →
      processTokenF (fuel + 1) st (Token.endTag n a d) = PRes.ok st' cmds ids →
      cmds = [Cmd.endTag n none]) := by
  refine ⟨?_, ?_, ?_⟩
  · intro fuel st n a d st' cmds ids h
    rw [tag_case_eq] at h
    injection h with h1 h2 h3
    refine ⟨if n = ("table") then (if st.inTransclusion then [] else [fosterBoxCmd]) else [], ?_, ?_⟩
    · split_ifs <;> simp
    · exact h2.symm
  · intro fuel st n a d st' cmds ids haie h
    rw [endTag_case_eq] at h
    injection h with h1 h2 h3
    rw [← h2]
    have hP : (prepDA st (Token.endTag n a d)).autoInsertedEnd = false := by
      rw [prepDA_autoIns]; simpa [Token.daOf] using haie
    simp [hP, Token.attribsOf]
  · intro fuel st n a d st' cmds ids haie h
    rw [endTag_case_eq] at h
    injection h with h1 h2 h3
    rw [← h2]
    have hP : (prepDA st (Token.endTag n a d)).autoInsertedEnd = true := by
      rw [prepDA_autoIns]; simpa [Token.daOf] using haie
    simp [hP]

theorem shadow_pairing_witness :
    (∃ fb, (fb = ([] : List Cmd) ∨ fb = [fosterBoxCmd]) ∧
      ([Cmd.startTag ("p") false
          (att ([] ++ [(("data-parsoid"), AttrVal.serialized (prepDA freshState (Token.tag ("p") [] none)))])),
        startShadowCmd ("p") (prepDA freshState (Token.tag ("p") [] none))] : List Cmd) = fb ++
          [Cmd.startTag ("p") false
            (att ([] ++ [(("data-parsoid"), AttrVal.serialized (prepDA freshState (Token.tag ("p") [] none)))])),
           startShadowCmd ("p") (prepDA freshState (Token.tag ("p") [] none))]) ∧
    ([Cmd.endTag ("p") none,
        endShadowCmd ("p")
          ([] ++ [(("data-parsoid"), AttrVal.serialized (prepDA freshState (Token.endTag ("p") [] none)))])
          (prepDA freshState (Token.endTag ("p") [] none))] : List Cmd) =
      [Cmd.endTag ("p") none,
        endShadowCmd ("p")
          ([] ++ [(("data-parsoid"), AttrVal.serialized (prepDA freshState (Token.endTag ("p") [] none)))])
          (prepDA freshState (Token.endTag ("p") [] none))] ∧
    ([Cmd.endTag ("p") none] : List Cmd) = [Cmd.endTag ("p") none] := by
  refine ⟨?_, ?_, ?_⟩
  · exact shadow_pairing.1 9 freshState ("p") [] none _ _ _ rfl
  · exact shadow_pairing.2.1 9 freshState ("p") [] none _ _ _ rfl rfl
  · exact shadow_pairing.2.2 9 freshState ("p") []
      (some (DataAttribs.mk none true none none none none)) _ _ _ rfl rfl

/-- C6: for every OpenTag named `table`, when `inTransclusion` is false the
emitted commands are exactly one foster-box marker (self-closing, typeof
`mw:FosterBox`) immediately before the open-element(table) command; when
`inTransclusion` is true, no foster-box marker is emitted. -/
theorem foster_box :
    ∀ fuel st a d st' cmds ids,
      processTokenF (fuel + 1) st (Token.tag ("table") a d) = PRes.ok st' cmds ids →
      cmds = (if st.inTransclusion then ([] : List Cmd) else [fosterBoxCmd]) ++
        [Cmd.startTag ("table") false
          (att (a ++ [(("data-parsoid"),
            AttrVal.serialized (prepDA st (Token.tag ("table") a d)))])),
         startShadowCmd ("table") (prepDA st (Token.tag ("table") a d))] := by
  intro fuel st a d st' cmds ids h
  rw [tag_case_eq] at h
  injection h with h1 h2 h3
  simp at h2
  exact h2.symm

theorem foster_box_witness :
    (([fosterBoxCmd] : List Cmd) ++
      [Cmd.startTag ("table") false
        (att ([] ++ [(("data-parsoid"),
          AttrVal.serialized (prepDA freshState (Token.tag ("table") [] none)))])),
       startShadowCmd ("table") (prepDA freshState (Token.tag ("table") [] none))]) =
    (if freshState.inTransclusion then ([] : List Cmd) else [fosterBoxCmd]) ++
      [Cmd.startTag ("table") false
        (att ([] ++ [(("data-parsoid"),
          AttrVal.serialized (prepDA freshState (Token.tag ("table") [] none)))])),
       startShadowCmd ("table") (prepDA freshState (Token.tag ("table") [] none))] := by
  exact (foster_box 9 freshState [] none _ _ _ rfl).symm.trans rfl

/-- C9 counterexample: the close-element command emitted for a concrete
CloseTag (`EndTagTk('p')` from the fresh state) carries no attribute list at
all (`{type: 'EndTag', name}`, line 305), so in particular no serialized
`data-parsoid` attribute — the serialized bag travels only in the shadow
comment. -/
theorem attribute_carry_counterexample :
    (match processTokenF 10 freshState (Token.endTag ("p") [] none) with
     | PRes.ok _ cmds _ => cmds.head?
     | _ => none) = some (Cmd.endTag ("p") none) := by
  rfl

/-- C9 amended: every OpenTag's emitted open-element command carries the
serialized metadata bag as a `data-parsoid` attribute in its attribute list;
for CloseTags the close-element command itself carries no attribute list,
and the serialized bag instead travels in the shadow comment (when one is
emitted, i.e. for non-auto-inserted closes). -/
theorem attribute_carry_amended :
    (∀ fuel st n a d st' cmds ids,
      processTokenF (fuel + 1) st (Token.tag n a d) = PRes.ok st' cmds ids →
      ∃ fb rest, cmds = fb ++ Cmd.startTag n false
          (att (a ++ [(("data-parsoid"), AttrVal.serialized (prepDA st (Token.tag n a d)))])) :: rest ∧
        (("data-parsoid"), AttrVal.serialized (prepDA st (Token.tag n a d))) ∈
          att (a ++ [(("data-parsoid"), AttrVal.serialized (prepDA st (Token.tag n a d)))])) ∧
    (∀ fuel st n a d st' cmds ids,
      processTokenF (fuel + 1) st (Token.endTag n a d) = PRes.ok st' cmds ids →
      cmds.head? = some (Cmd.endTag n none)) ∧
    (∀ fuel st n a d st' cmds ids, (d.getD defaultDA).autoInsertedEnd = false →
      processTokenF (fuel + 1) st (Token.endTag n a d) = PRes.ok st' cmds ids →
      cmds.get? 1 = some (endShadowCmd n
          (a ++ [(("data-parsoid"), AttrVal.serialized (prepDA st (Token.endTag n a d)))])
          (prepDA st (Token.endTag n a d))) ∧
        (("data-parsoid"), AttrVal.serialized (prepDA st (Token.endTag n a d))) ∈
          att (a ++ [(("data-parsoid"), AttrVal.serialized (prepDA st (Token.endTag n a d)))])) := by
  refine ⟨?_, ?_, ?_⟩
  · intro fuel st n a d st' cmds ids h
    rw [tag_case_eq] at h
    injection h with h1 h2 h3
    refine ⟨_, _, h2.symm, ?_⟩
    simp [att]
  · intro fuel st n a d st' cmds ids h
    rw [endTag_case_eq] at h
    injection h with h1 h2 h3
    rw [← h2]
    split_ifs <;> rfl
  · intro fuel st n a d st' cmds ids haie h
    rw [endTag_case_eq] at h
    injection h with h1 h2 h3
    rw [← h2]
    have hP : (prepDA st (Token.endTag n a d)).autoInsertedEnd = false := by
      rw [prepDA_autoIns]; simpa [Token.daOf] using haie
    refine ⟨by simp [hP, Token.attribsOf], by simp [att]⟩

theorem attribute_carry_amended_witness :
    (∃ fb rest, ([Cmd.startTag ("p") false (att ([] ++ [(("data-parsoid"), AttrVal.serialized daP)])),
        startShadowCmd ("p") daP] : List Cmd) =
        fb ++ Cmd.startTag ("p") false (att ([] ++ [(("data-parsoid"), AttrVal.serialized daP)])) :: rest ∧
      (("data-parsoid"), AttrVal.serialized daP) ∈ att ([] ++ [(("data-parsoid"), AttrVal.serialized daP)])) ∧
    (([Cmd.endTag ("p") none,
        endShadowCmd ("p") ([] ++ [(("data-parsoid"), AttrVal.serialized daE)]) daE] : List Cmd).head? =
      some (Cmd.endTag ("p") none)) ∧
    (([Cmd.endTag ("p") none,
        endShadowCmd ("p") ([] ++ [(("data-parsoid"), AttrVal.serialized daE)]) daE] : List Cmd).get? 1 =
        some (endShadowCmd ("p") ([] ++ [(("data-parsoid"), AttrVal.serialized daE)]) daE) ∧
      (("data-parsoid"), AttrVal.serialized daE) ∈ att ([] ++ [(("data-parsoid"), AttrVal.serialized daE)])) := by
  refine ⟨?_, ?_, ?_⟩
  · exact attribute_carry_amended.1 9 freshState ("p") [] none _ _ _ rfl
  · exact attribute_carry_amended.2.1 9 freshState ("p") [] none _ _ _ rfl
  · exact attribute_carry_amended.2.2 9 freshState ("p") [] none _ _ _ rfl rfl

/-! ## C7: preceded-by-pre -/

/-- The claimed update rule for the preceded-by-pre flag: set after an open
`pre`, unchanged for an open nowiki span, cleared otherwise. -/
def preUpdate (b : Bool) (t : Token) : Bool :=
  match t with
  | .tag n _ _ =>
    if n = ("pre") then true
    else if n = ("span") then (if isNowikiSpanTypeof t then b else false)
    else false
  | _ => false

/-- C7: after processing any token the preceded-by-pre flag is true iff that
token was an OpenTag named `pre`, except that an OpenTag `span` with typeof
`mw:Nowiki` leaves the flag unchanged (`preUpdate`); and when the flag is
true, a Text or NewlineBreak token whose content begins with a newline has
one extra newline prepended to its emitted text command. -/
theorem preceded_by_pre :
    (∀ fuel st t st' c ids, processTokenF (fuel + 1) st t = PRes.ok st' c ids →
      st'.preceededByPre = preUpdate st.preceededByPre t) ∧
    (∀ fuel st s st' c ids, st.preceededByPre = true → headIsNl s = true →
      processTokenF (fuel + 1) st (Token.str s) = PRes.ok st' c ids →
      c.head? = some (Cmd.chars (("\n") ++ s))) ∧
    (∀ fuel st st' c ids, st.preceededByPre = true →
      processTokenF (fuel + 1) st Token.nl = PRes.ok st' c ids →
      c.head? = some (Cmd.chars ("\n\n"))) := by
  refine ⟨?_, ?_, ?_⟩
  · intro fuel st t st' c ids h
    cases t with
    | str s =>
      simp only [processTokenF, prep, strNlCase] at h
      split at h <;> (injection h with h1 h2 h3; subst h1; simp [post, preUpdate])
    | nl =>
      simp only [processTokenF, prep, strNlCase] at h
      split at h <;> (injection h with h1 h2 h3; subst h1; simp [post, preUpdate])
    | comment v =>
      simp only [processTokenF, prep] at h
      injection h with h1 h2 h3; subst h1; simp [post, preUpdate]
    | eof =>
      simp only [processTokenF, prep] at h
      injection h with h1 h2 h3; subst h1; simp [post, preUpdate]
    | endTag n a d =>
      simp only [processTokenF, prep] at h
      injection h with h1 h2 h3; subst h1; simp [post, preUpdate]
    | tag n a d =>
      rw [tag_case_eq] at h
      injection h with h1 h2 h3; subst h1
      simp only [post, preUpdate]
      split_ifs <;> simp
    | selfClosing n a d =>
      simp only [processTokenF, prep] at h
      split at h
      · split at h
        · exact PRes.noConfusion h
        · rename_i toks htoks
          split at h
          · injection h with h1 h2 h3; subst h1; simp [post, preUpdate]
          · rename_i hne; exact absurd h (hne _ _ _)
      · split at h
        · exact PRes.noConfusion h
        · split at h
          · rename_i toks htoks
            split at h
            · injection h with h1 h2 h3; subst h1; simp [post, preUpdate]
            · rename_i hne; exact absurd h (hne _ _ _)
          · exact PRes.noConfusion h
        · split at h
          · simp only [metaOrGeneric, genericSelfClosing] at h
            split at h
            · injection h with h1 h2 h3; subst h1; simp [post, preUpdate]
            · split at h
              · injection h with h1 h2 h3; subst h1; simp [post, preUpdate]
              · injection h with h1 h2 h3; subst h1; simp [post, preUpdate]
              · exact PRes.noConfusion h
              · exact PRes.noConfusion h
          · simp only [genericSelfClosing] at h
            injection h with h1 h2 h3; subst h1; simp [post, preUpdate]
  · intro fuel st s st' c ids hpre hnl h
    simp only [processTokenF, prep, strNlCase, hpre, hnl] at h
    split at h <;> (injection h with h1 h2 h3; subst h2; rfl)
  · intro fuel st st' c ids hpre h
    simp only [processTokenF, prep, strNlCase, hpre] at h
    rw [show headIsNl ("\n") = true from rfl] at h
    split at h <;> (injection h with h1 h2 h3; subst h2; rfl)

theorem preceded_by_pre_witness :
    ((true : Bool) = preUpdate freshState.preceededByPre (Token.tag ("pre") [] none)) ∧
    (([Cmd.chars (("\n") ++ ("\nx"))] : List Cmd).head? = some (Cmd.chars (("\n") ++ ("\nx")))) ∧
    (([Cmd.chars ("\n\n")] : List Cmd).head? = some (Cmd.chars ("\n\n"))) := by
  refine ⟨?_, ?_, ?_⟩
  · exact preceded_by_pre.1 9 freshState (Token.tag ("pre") [] none) _ _ _ rfl
  · exact preceded_by_pre.2.1 9 { freshState with preceededByPre := true } ("\nx") _ _ _ rfl rfl rfl
  · exact preceded_by_pre.2.2 9 { freshState with preceededByPre := true } _ _ _ rfl rfl

/-! ## C3: transclusion shadow -/

def textual : Token → Bool
  | .str _ => true
  | .nl => true
  | _ => false

def isStrTok : Token → Bool
  | .str _ => true
  | _ => false

/-- Text payload emitted for a string `d`, with the newline doubling applied
when the preceded-by-pre flag is set. -/
def strData (pre : Bool) (d : String) : String :=
  if pre && headIsNl d then ("\n") ++ d else d

/-- Expected commands for a run of text/newline tokens that emits no
transclusion shadow. -/
def charsOnly : Bool → List Token → List Cmd
  | _, [] => []
  | pre, .nl :: ts => Cmd.chars (strData pre ("\n")) :: charsOnly false ts
  | pre, .str s :: ts => Cmd.chars (strData pre s) :: charsOnly false ts
  | _, _ :: ts => charsOnly false ts

/-- Expected commands for a run of text/newline tokens processed inside a
table inside a transclusion with no shadow emitted yet: one transclusion
shadow marker immediately after the text command of the first string token
(newline tokens never trigger it), none afterwards. -/
def c3Expected : Bool → List Token → List Cmd
  | _, [] => []
  | pre, .nl :: ts => Cmd.chars (strData pre ("\n")) :: c3Expected false ts
  | pre, .str s :: ts => Cmd.chars (strData pre s) :: tshadowCmd :: charsOnly false ts
  | _, _ :: ts => []

def isTShadow : Cmd → Bool
  | Cmd.startTag m _ l =>
    m == ("meta") &&
      (match l with
       | [(k, AttrVal.str v)] => k == ("typeof") && v == ("mw:TransclusionShadow")
       | _ => false)
  | _ => false

def countTShadow : List Cmd → Nat
  | [] => 0
  | c :: l => (if isTShadow c then 1 else 0) + countTShadow l

@[simp] lemma post_shadow_str (s : State) (x : String) :
    (post s (Token.str x)).haveTransclusionShadow = s.haveTransclusionShadow := by
  simp [post]

@[simp] lemma post_shadow_nl (s : State) :
    (post s Token.nl).haveTransclusionShadow = s.haveTransclusionShadow := by
  simp [post]

@[simp] lemma post_pre_str (s : State) (x : String) :
    (post s (Token.str x)).preceededByPre = false := by
  simp [post]

@[simp] lemma post_pre_nl (s : State) :
    (post s Token.nl).preceededByPre = false := by
  simp [post]

/-- A run of text/newline tokens with the shadow flag already set emits just
the text commands. -/
lemma c3_noShadow : ∀ fuel : Nat, ∀ st ts st' c ids,
    (∀ t ∈ ts, textual t = true) → st.haveTransclusionShadow = true →
    processTokensF fuel st ts = PRes.ok st' c ids →
    c = charsOnly st.preceededByPre ts := by
  intro fuel
  induction fuel with
  | zero => intro st ts st' c ids _ _ h; simp only [processTokensF] at h; exact PRes.noConfusion h
  | succ fuel ih =>
    intro st ts st' c ids htx hsh h
    cases ts with
    | nil =>
      simp only [processTokensF] at h
      injection h with h1 h2 h3
      rw [← h2]; rfl
    | cons t ts =>
      have ht := htx t (by simp)
      simp only [processTokensF] at h
      split at h
      · rename_i st1 c1 i1 h1
        split at h
        · rename_i st2 c2 i2 h2
          injection h with ha hb hc
          cases fuel with
          | zero => simp only [processTokenF] at h1; exact PRes.noConfusion h1
          | succ f2 =>
            cases t with
            | str s =>
              simp only [processTokenF, prep, strNlCase, hsh] at h1
              simp at h1
              obtain ⟨e1, e2, e3⟩ := h1
              have hc2 := ih _ ts _ _ _ (fun u hu => htx u (by simp [hu]))
                (by rw [← e1]; simp [hsh]) h2
              rw [← hb, ← e2, hc2, ← e1]
              simp [charsOnly, strData]
            | nl =>
              simp only [processTokenF, prep, strNlCase] at h1
              simp at h1
              obtain ⟨e1, e2, e3⟩ := h1
              have hc2 := ih _ ts _ _ _ (fun u hu => htx u (by simp [hu]))
                (by rw [← e1]; simp [hsh]) h2
              rw [← hb, ← e2, hc2, ← e1]
              simp [charsOnly, strData]
            | tag n a d => simp [textual] at ht
            | selfClosing n a d => simp [textual] at ht
            | endTag n a d => simp [textual] at ht
            | comment v => simp [textual] at ht
            | eof => simp [textual] at ht
        · rename_i hne; exact absurd h (hne _ _ _)
      · rename_i hne; exact absurd h (hne _ _ _)

/-- A run of text/newline tokens inside a table inside a transclusion with
no shadow emitted yet produces exactly the `c3Expected` commands. -/
lemma c3_run : ∀ fuel : Nat, ∀ st ts st' c ids,
    (∀ t ∈ ts, textual t = true) → st.inTransclusion = true → 0 < st.tableDepth →
    st.haveTransclusionShadow = false →
    processTokensF fuel st ts = PRes.ok st' c ids →
    c = c3Expected st.preceededByPre ts := by
  intro fuel
  induction fuel with
  | zero => intro st ts st' c ids _ _ _ _ h; simp only [processTokensF] at h; exact PRes.noConfusion h
  | succ fuel ih =>
    intro st ts st' c ids htx hin hd hsh h
    cases ts with
    | nil =>
      simp only [processTokensF] at h
      injection h with h1 h2 h3
      rw [← h2]; rfl
    | cons t ts =>
      have ht := htx t (by simp)
      simp only [processTokensF] at h
      split at h
      · rename_i st1 c1 i1 h1
        split at h
        · rename_i st2 c2 i2 h2
          injection h with ha hb hc
          cases fuel with
          | zero => simp only [processTokenF] at h1; exact PRes.noConfusion h1
          | succ f2 =>
            cases t with
            | str s =>
              simp only [processTokenF, prep, strNlCase, hin, hsh, hd] at h1
              rw [if_pos] at h1
              · injection h1 with e1 e2 e3
                have hc2 := c3_noShadow _ _ ts _ _ _ (fun u hu => htx u (by simp [hu]))
                  (by rw [← e1]; simp [post]) h2
                rw [← hb, ← e2, hc2, ← e1]
                simp [c3Expected, charsOnly, strData]
              · simp [hin, hsh, hd]
            | nl =>
              simp only [processTokenF, prep, strNlCase] at h1
              simp at h1
              obtain ⟨e1, e2, e3⟩ := h1
              have hc2 := ih _ ts _ _ _ (fun u hu => htx u (by simp [hu]))
                (by rw [← e1]; simp [hin]) (by rw [← e1]; simpa using hd)
                (by rw [← e1]; simp [hsh]) h2
              rw [← hb, ← e2, hc2, ← e1]
              simp [c3Expected, strData]
            | tag n a d => simp [textual] at ht
            | selfClosing n a d => simp [textual] at ht
            | endTag n a d => simp [textual] at ht
            | comment v => simp [textual] at ht
            | eof => simp [textual] at ht
        · rename_i hne; exact absurd h (hne _ _ _)
      · rename_i hne; exact absurd h (hne _ _ _)

lemma countTShadow_charsOnly (pre : Bool) (ts : List Token) :
    countTShadow (charsOnly pre ts) = 0 := by
  induction ts generalizing pre with
  | nil => rfl
  | cons t ts ih => cases t <;> simp [charsOnly, countTShadow, isTShadow, ih]

lemma countTShadow_c3Expected (pre : Bool) (ts : List Token)
    (h : ∀ t ∈ ts, textual t = true) :
    countTShadow (c3Expected pre ts) = (if ts.any isStrTok then 1 else 0) := by
  induction ts generalizing pre with
  | nil => rfl
  | cons t ts ih =>
    have ht := h t (by simp)
    cases t with
    | nl =>
      simp only [c3Expected, countTShadow, isTShadow, List.any_cons]
      rw [ih false (fun u hu => h u (by simp [hu]))]
      simp [isStrTok]
    | str s =>
      simp only [c3Expected, countTShadow, isTShadow, List.any_cons]
      rw [countTShadow_charsOnly false ts]
      simp [isStrTok, tshadowCmd]
    | tag n a d => simp [textual] at ht
    | selfClosing n a d => simp [textual] at ht
    | endTag n a d => simp [textual] at ht
    | comment v => simp [textual] at ht
    | eof => simp [textual] at ht

/-- C3 amended: for a run of text/newline tokens processed while
`inTransclusion` is true, `tableDepth > 0` and no shadow is pending, the
emitted commands are `c3Expected`: the single transclusion-shadow marker is
placed immediately after the text command of the first *string* token of the
run (newline tokens never trigger it), so the run carries exactly one marker
when it contains a Text token and none when it is newlines only. -/
theorem transclusion_shadow_amended :
    ∀ fuel st ts st' c ids,
      (∀ t ∈ ts, textual t = true) → st.inTransclusion = true → 0 < st.tableDepth →
      st.haveTransclusionShadow = false →
      processTokensF fuel st ts = PRes.ok st' c ids →
      c = c3Expected st.preceededByPre ts ∧
        countTShadow c = (if ts.any isStrTok then 1 else 0) := by
  intro fuel st ts st' c ids htx hin hd hsh h
  have hc := c3_run fuel st ts st' c ids htx hin hd hsh h
  exact ⟨hc, by rw [hc]; exact countTShadow_c3Expected _ ts htx⟩

theorem transclusion_shadow_amended_witness :
    (([Cmd.chars ("\n"), Cmd.chars ("x"), tshadowCmd] : List Cmd) =
      c3Expected ({ freshState with inTransclusion := true, tableDepth := 1 } : State).preceededByPre
        [Token.nl, Token.str ("x")]) ∧
    countTShadow [Cmd.chars ("\n"), Cmd.chars ("x"), tshadowCmd] =
      (if ([Token.nl, Token.str ("x")] : List Token).any isStrTok then 1 else 0) := by
  exact transclusion_shadow_amended 10
    { freshState with inTransclusion := true, tableDepth := 1 }
    [Token.nl, Token.str ("x")] _ _ _ (by decide) rfl (by decide) rfl rfl

/-- Token stream reaching a state inside a transclusion inside a table and
then processing a run consisting of a single newline token. -/
def c3Input : List Token :=
  [Token.selfClosing ("meta") [(("typeof"), AttrVal.str ("mw:Transclusion"))] none,
   Token.tag ("table") [] none, Token.nl]

/-- C3 counterexample: after entering a transclusion and opening a table,
the trailing maximal run consisting of one NewlineBreak token (N = 1,
processed while `inTransclusion` is true and `tableDepth > 0`) emits zero
transclusion-shadow markers in the whole command stream, not the exactly one
the claim requires; the source only inserts the marker for string tokens
(`token.constructor === String`, line 181). -/
theorem transclusion_shadow_counterexample :
    (match processTokensF 50 freshState c3Input with
     | PRes.ok st cmds _ => some (st.inTransclusion, decide (0 < st.tableDepth), countTShadow cmds)
     | _ => none) = some (true, true, 0) := by
  rfl

/-! ## C2: table depth -/

def tokOpenTable : Token → Bool
  | .tag n _ _ => n == ("table")
  | _ => false

def tokCloseTable : Token → Bool
  | .endTag n _ _ => n == ("table")
  | _ => false

/-- Tokens whose processing re-enters `processToken` on stored tokens
(empty-line metas and raw-HTML `pre` unpacks). -/
def expanding : Token → Bool
  | t@(.selfClosing n _ _) =>
    isEmptyLineMetaToken t || (mwHtmlPreTest n (t.getAttr ("property")) == some true)
  | _ => false

/-- The table-depth transition of one processed token (lines 196-197 and
302-304). -/
def depthStep (d : Int) (t : Token) : Int :=
  if tokOpenTable t then d + 1
  else if tokCloseTable t && decide (0 < d) then d - 1
  else d

def delta (t : Token) : Int :=
  if tokOpenTable t then 1 else if tokCloseTable t then -1 else 0

/-- Processing one non-expanding token moves `tableDepth` by `depthStep`. -/
lemma depth_step_tok : ∀ fuel st t st' c ids, expanding t = false →
    processTokenF (fuel + 1) st t = PRes.ok st' c ids →
    st'.tableDepth = depthStep st.tableDepth t := by
  intro fuel st t st' c ids hexp h
  cases t with
  | str s =>
    simp only [processTokenF, prep, strNlCase] at h
    split at h <;>
      (injection h with h1 h2 h3; subst h1;
       simp [depthStep, tokOpenTable, tokCloseTable])
  | nl =>
    simp only [processTokenF, prep, strNlCase] at h
    split at h <;>
      (injection h with h1 h2 h3; subst h1;
       simp [depthStep, tokOpenTable, tokCloseTable])
  | comment v =>
    simp only [processTokenF, prep] at h
    injection h with h1 h2 h3; subst h1
    simp [depthStep, tokOpenTable, tokCloseTable]
  | eof =>
    simp only [processTokenF, prep] at h
    injection h with h1 h2 h3; subst h1
    simp [depthStep, tokOpenTable, tokCloseTable]
  | tag n a d =>
    rw [tag_case_eq] at h
    injection h with h1 h2 h3; subst h1
    simp only [post_tableDepth, depthStep, tokOpenTable, tokCloseTable]
    by_cases hn : n = ("table") <;> simp [hn]
  | endTag n a d =>
    rw [endTag_case_eq] at h
    injection h with h1 h2 h3; subst h1
    simp only [post_tableDepth, depthStep, tokOpenTable, tokCloseTable]
    by_cases hn : n = ("table") <;> by_cases hd : (0 : Int) < st.tableDepth <;>
      simp [hn, hd]
  | selfClosing n a d =>
    simp only [processTokenF, prep] at h
    split at h
    · rename_i hemp
      simp [expanding, hemp] at hexp
    · split at h
      · exact PRes.noConfusion h
      · rename_i hmw
        rw [expanding] at hexp
        simp [hmw] at hexp
      · split at h
        · simp only [metaOrGeneric, genericSelfClosing] at h
          split at h
          · injection h with h1 h2 h3; subst h1
            simp [depthStep, tokOpenTable, tokCloseTable]
          · split at h
            · injection h with h1 h2 h3; subst h1
              simp only [post_tableDepth, depthStep, tokOpenTable, tokCloseTable]
              split_ifs <;> first | rfl | simp_all
            · injection h with h1 h2 h3; subst h1
              simp [depthStep, tokOpenTable, tokCloseTable]
            · exact PRes.noConfusion h
            · exact PRes.noConfusion h
        · simp only [genericSelfClosing] at h
          injection h with h1 h2 h3; subst h1
          simp [depthStep, tokOpenTable, tokCloseTable]

/-- `tableDepth` never becomes negative, for arbitrary tokens (recursive
re-expansion included). -/
lemma depth_nonneg : ∀ fuel : Nat,
    (∀ st t st' c ids, processTokenF fuel st t = PRes.ok st' c ids →
      0 ≤ st.tableDepth → 0 ≤ st'.tableDepth) ∧
    (∀ st ts st' c ids, processTokensF fuel st ts = PRes.ok st' c ids →
      0 ≤ st.tableDepth → 0 ≤ st'.tableDepth) := by
  intro fuel
  induction fuel with
  | zero =>
    constructor
    · intro st t st' c ids h; simp only [processTokenF] at h; exact PRes.noConfusion h
    · intro st ts st' c ids h; simp only [processTokensF] at h; exact PRes.noConfusion h
  | succ fuel ih =>
    constructor
    · intro st t st' c ids h hd
      cases t with
      | str s =>
        simp only [processTokenF, prep, strNlCase] at h
        split at h <;> (injection h with h1 h2 h3; subst h1; simpa using hd)
      | nl =>
        simp only [processTokenF, prep, strNlCase] at h
        split at h <;> (injection h with h1 h2 h3; subst h1; simpa using hd)
      | comment v =>
        simp only [processTokenF, prep] at h
        injection h with h1 h2 h3; subst h1; simpa using hd
      | eof =>
        simp only [processTokenF, prep] at h
        injection h with h1 h2 h3; subst h1; simpa using hd
      | tag n a d =>
        rw [tag_case_eq] at h
        injection h with h1 h2 h3; subst h1
        simp only [post_tableDepth]
        split_ifs <;> (try simp) <;> omega
      | endTag n a d =>
        simp only [processTokenF, prep] at h
        injection h with h1 h2 h3; subst h1
        simp only [post_tableDepth]
        split_ifs <;> (try simp) <;> omega
      | selfClosing n a d =>
        simp only [processTokenF, prep] at h
        split at h
        · split at h
          · exact PRes.noConfusion h
          · rename_i toks htoks
            split at h
            · rename_i st2 cmds2 ids2 hrec
              injection h with h1 h2 h3; subst h1
              simp only [post_tableDepth]
              exact ih.2 _ _ _ _ _ hrec (by simpa using hd)
            · rename_i hne; exact absurd h (hne _ _ _)
        · split at h
          · exact PRes.noConfusion h
          · split at h
            · rename_i toks htoks
              split at h
              · rename_i st2 cmds2 ids2 hrec
                injection h with h1 h2 h3; subst h1
                simp only [post_tableDepth]
                exact ih.2 _ _ _ _ _ hrec (by simpa using hd)
              · rename_i hne; exact absurd h (hne _ _ _)
            · exact PRes.noConfusion h
          · split at h
            · simp only [metaOrGeneric, genericSelfClosing] at h
              split at h
              · injection h with h1 h2 h3; subst h1; simpa using hd
              · split at h
                · injection h with h1 h2 h3; subst h1
                  simp only [post_tableDepth]
                  split_ifs <;> simpa using hd
                · injection h with h1 h2 h3; subst h1; simpa using hd
                · exact PRes.noConfusion h
                · exact PRes.noConfusion h
            · simp only [genericSelfClosing] at h
              injection h with h1 h2 h3; subst h1; simpa using hd
    · intro st ts st' c ids h hd
      cases ts with
      | nil =>
        simp only [processTokensF] at h
        injection h with h1 h2 h3; subst h1; exact hd
      | cons t ts =>
        simp only [processTokensF] at h
        split at h
        · rename_i st1 c1 i1 h1
          split at h
          · rename_i st2 c2 i2 h2
            injection h with ha hb hc; subst ha
            exact ih.2 _ _ _ _ _ h2 (ih.1 _ _ _ _ _ h1 hd)
          · rename_i hne; exact absurd h (hne _ _ _)
        · rename_i hne; exact absurd h (hne _ _ _)

/-- Over a run of non-expanding tokens the depth is the fold of
`depthStep`. -/
lemma depth_fold : ∀ fuel : Nat, ∀ st ts st' c ids,
    (∀ t ∈ ts, expanding t = false) →
    processTokensF fuel st ts = PRes.ok st' c ids →
    st'.tableDepth = List.foldl depthStep st.tableDepth ts := by
  intro fuel
  induction fuel with
  | zero => intro st ts st' c ids _ h; simp only [processTokensF] at h; exact PRes.noConfusion h
  | succ fuel ih =>
    intro st ts st' c ids hexp h
    cases ts with
    | nil =>
      simp only [processTokensF] at h
      injection h with h1 h2 h3; subst h1; rfl
    | cons t ts =>
      simp only [processTokensF] at h
      split at h
      · rename_i st1 c1 i1 h1
        split at h
        · rename_i st2 c2 i2 h2
          injection h with ha hb hc; subst ha
          cases fuel with
          | zero => simp only [processTokenF] at h1; exact PRes.noConfusion h1
          | succ f2 =>
            have hstep := depth_step_tok f2 st t st1 c1 i1 (hexp t (by simp)) h1
            have hrest := ih st1 ts _ _ _ (fun u hu => hexp u (by simp [hu])) h2
            rw [hrest, hstep]
            rfl
        · rename_i hne; exact absurd h (hne _ _ _)
      · rename_i hne; exact absurd h (hne _ _ _)

def openTableCount (ts : List Token) : Nat :=
  ts.countP (fun t => tokOpenTable t)

def closeTableCount (ts : List Token) : Nat :=
  ts.countP (fun t => tokCloseTable t)

/-- Signed surplus of open-table over close-table tokens. -/
def excess (ts : List Token) : Int :=
  (openTableCount ts : Int) - (closeTableCount ts : Int)

/-- Maximum of `excess` over all suffixes (the empty suffix included). -/
def maxSuffixExcess : List Token → Int
  | [] => 0
  | t :: ts => max (excess (t :: ts)) (maxSuffixExcess ts)

lemma excess_cons (t : Token) (ts : List Token) :
    excess (t :: ts) = delta t + excess ts := by
  simp only [excess, openTableCount, closeTableCount, List.countP_cons, delta]
  by_cases h1 : tokOpenTable t
  · have h2 : tokCloseTable t = false := by
      cases t <;> simp [tokOpenTable, tokCloseTable] at h1 ⊢
    simp [h1, h2]; push_cast; ring
  · by_cases h2 : tokCloseTable t
    · simp only [h1, h2]
      simp only [if_true, if_false, Bool.false_eq_true]
      push_cast; ring
    · simp [h1, h2]

lemma excess_le_mse (ts : List Token) : excess ts ≤ maxSuffixExcess ts := by
  cases ts with
  | nil => simp [excess, maxSuffixExcess, openTableCount, closeTableCount]
  | cons t ts => exact le_max_left _ _

lemma mse_nonneg (ts : List Token) : 0 ≤ maxSuffixExcess ts := by
  induction ts with
  | nil => simp [maxSuffixExcess]
  | cons t ts ih => exact le_trans ih (le_max_right _ _)

lemma depthStep_eq_max (d : Int) (t : Token) (hd : 0 ≤ d) :
    depthStep d t = max (d + delta t) 0 := by
  cases t with
  | tag n a d2 =>
    simp only [depthStep, delta, tokOpenTable, tokCloseTable]
    by_cases hn : n == ("table") <;>
      (simp [hn]; (try rw [max_def]); (try split_ifs); all_goals omega)
  | endTag n a d2 =>
    simp only [depthStep, delta, tokOpenTable, tokCloseTable]
    by_cases hn : n == ("table") <;> by_cases hpos : (0 : Int) < d <;>
      (simp [hn, hpos]; (try rw [max_def]); (try split_ifs); all_goals omega)
  | str s =>
    simp [depthStep, delta, tokOpenTable, tokCloseTable]
    omega
  | nl =>
    simp [depthStep, delta, tokOpenTable, tokCloseTable]
    omega
  | selfClosing n a d2 =>
    simp [depthStep, delta, tokOpenTable, tokCloseTable]
    omega
  | comment v =>
    simp [depthStep, delta, tokOpenTable, tokCloseTable]
    omega
  | eof =>
    simp [depthStep, delta, tokOpenTable, tokCloseTable]
    omega

lemma fold_eq_max : ∀ ts : List Token, ∀ d : Int, 0 ≤ d →
    List.foldl depthStep d ts = max (d + excess ts) (maxSuffixExcess ts) := by
  intro ts
  induction ts with
  | nil =>
    intro d hd
    simp only [List.foldl_nil, maxSuffixExcess, excess, openTableCount, closeTableCount]
    simp
    omega
  | cons t ts ih =>
    intro d hd
    have hstep : 0 ≤ depthStep d t := by
      rw [depthStep_eq_max d t hd]; exact le_max_right _ _
    rw [List.foldl_cons, ih (depthStep d t) hstep, depthStep_eq_max d t hd]
    have hE := excess_le_mse ts
    have hM := mse_nonneg ts
    rw [excess_cons, show maxSuffixExcess (t :: ts) = max (excess (t :: ts)) (maxSuffixExcess ts) from rfl, excess_cons]
    simp only [max_def]
    split_ifs <;> omega

lemma mse_pos_iff (ts : List Token) :
    0 < maxSuffixExcess ts ↔ ∃ s ∈ ts.tails, 0 < excess s := by
  induction ts with
  | nil =>
    simp [maxSuffixExcess, excess, openTableCount, closeTableCount]
  | cons t ts ih =>
    simp only [maxSuffixExcess, lt_max_iff, ih, List.tails_cons, List.mem_cons]
    constructor
    · rintro (h | ⟨s, hs, hpos⟩)
      · exact ⟨t :: ts, Or.inl rfl, h⟩
      · exact ⟨s, Or.inr hs, hpos⟩
    · rintro ⟨s, hs | hs, hpos⟩
      · subst hs; exact Or.inl hpos
      · exact Or.inr ⟨s, hs, hpos⟩

/-- C2: `tableDepth` stays non-negative after every `processToken` call (for
arbitrary tokens, recursive re-expansion included); an excess close-table
token at depth 0 leaves it at 0; and over any within-one-parse stream of
tokens whose processing does not re-enter `processToken`, the final depth is
strictly positive iff some suffix of the stream contains more open-table
than close-table tokens — i.e. iff some processed open `table` is not yet
matched by a later close `table`. -/
theorem table_depth_invariant :
    (∀ fuel st t st' c ids, processTokenF fuel st t = PRes.ok st' c ids →
      0 ≤ st.tableDepth → 0 ≤ st'.tableDepth) ∧
    (∀ fuel st a d st' c ids, st.tableDepth = 0 →
      processTokenF (fuel + 1) st (Token.endTag ("table") a d) = PRes.ok st' c ids →
      st'.tableDepth = 0) ∧
    (∀ fuel ts st' c ids, (∀ t ∈ ts, expanding t = false) →
      processTokensF fuel freshState ts = PRes.ok st' c ids →
      0 ≤ st'.tableDepth ∧
        (0 < st'.tableDepth ↔ ∃ s ∈ ts.tails, closeTableCount s < openTableCount s)) := by
  refine ⟨?_, ?_, ?_⟩
  · intro fuel st t st' c ids h hd
    exact (depth_nonneg fuel).1 _ _ _ _ _ h hd
  · intro fuel st a d st' c ids hz h
    have hstep := depth_step_tok fuel st _ st' c ids (by rfl) h
    rw [hstep]
    simp [depthStep, tokOpenTable, tokCloseTable, hz]
  · intro fuel ts st' c ids hexp h
    have hfold := depth_fold fuel freshState ts st' c ids hexp h
    have hfs : freshState.tableDepth = 0 := rfl
    rw [hfs] at hfold
    rw [fold_eq_max ts 0 le_rfl] at hfold
    have hmax : max (0 + excess ts) (maxSuffixExcess ts) = maxSuffixExcess ts := by
      rw [max_def]
      split_ifs with hc
      · rfl
      · exfalso
        have := excess_le_mse ts
        omega
    rw [hmax] at hfold
    constructor
    · rw [hfold]; exact mse_nonneg ts
    · rw [hfold, mse_pos_iff]
      constructor
      · rintro ⟨s, hs, hpos⟩
        refine ⟨s, hs, ?_⟩
        simp only [excess] at hpos
        omega
      · rintro ⟨s, hs, hlt⟩
        refine ⟨s, hs, ?_⟩
        simp only [excess]
        omega

theorem table_depth_invariant_witness :
    ((0 : Int) ≤ 0) ∧ ((0 : Int) = 0) ∧
    ((0 : Int) ≤ 0 ∧ ((0 : Int) < 0 ↔
      ∃ s ∈ ([Token.endTag ("table") [] none, Token.endTag ("table") [] none] : List Token).tails,
        closeTableCount s < openTableCount s)) := by
  refine ⟨?_, ?_, ?_⟩
  · exact table_depth_invariant.1 10 freshState (Token.str ("x")) _ _ _ rfl le_rfl
  · exact table_depth_invariant.2.1 9 freshState [] none _ _ _ rfl rfl
  · exact table_depth_invariant.2.2 10
      [Token.endTag ("table") [] none, Token.endTag ("table") [] none] _ _ _ (by decide) rfl
